import Mathlib

/- Verification of the SkyscopeSentinel miner core: the reward allocation
engine, the compact-difficulty target expansion, the nonce search loop and
the block submission retry logic, shallowly embedded from the Python
sources under `skyscope_miner/`.  Monetary amounts are embedded as exact
rationals; byte strings are lists of naturals below 256; the external hash
primitive (pysha3 Keccak-256) is an explicit function parameter, matching
the specification's treatment of the hash as an opaque deterministic
function. -/

/-! ## Rewards manager (`skyscope_miner/rewards_manager.py`) -/

/-- A conceptual payout instruction, as the dicts built by
`RewardsManager.process_mined_reward`:
`{'address': str, 'amount_kas': float, 'type': str}`. -/
structure PayoutInstruction where
  address : String
  amountKas : ℚ
  type : String
deriving DecidableEq

/-- The mutable state of `RewardsManager`.  The unset KAS/USD price
(`None` in the source) is `none`. -/
structure RewardsManager where
  userKaspaAddress : String
  devFeeAddress : String
  ownerKaspaAddress : String
  ownerAllocationTargetUsd : ℚ
  currentKasUsdPrice : Option ℚ
  cumulativeDevFeeKas : ℚ
  cumulativeOwnerAllocationKas : ℚ
  cumulativeUserNetKas : ℚ
  totalGrossKasProcessed : ℚ
  ownerTargetMet : Bool
deriving DecidableEq

/-- `RewardsManager.DEV_FEE_PERCENTAGE` (10%). -/
def DEV_FEE_PERCENTAGE : ℚ := 10

/-- `RewardsManager._get_owner_allocation_target_kas`: the owner allocation
target in KAS.  `none` stands for the source's `float('inf')`, returned
when the price is unset or non-positive. -/
def getOwnerAllocationTargetKas (s : RewardsManager) : Option ℚ :=
  match s.currentKasUsdPrice with
  | none => none
  | some p => if p ≤ 0 then none else some (s.ownerAllocationTargetUsd / p)

/-- `RewardsManager._update_owner_target_met_status`: once the flag is set
it is kept; otherwise it is set exactly when the cumulative owner
allocation has reached the target.  A `none` (infinite) target is never
reached, matching `cumulative >= float('inf')` being false. -/
def updateOwnerTargetMetStatus (s : RewardsManager) : RewardsManager :=
  if s.ownerTargetMet then s
  else
    match getOwnerAllocationTargetKas s with
    | none => s
    | some targetKas =>
      if targetKas ≤ s.cumulativeOwnerAllocationKas then
        { s with ownerTargetMet := true }
      else s

/-- `RewardsManager.update_kas_usd_price`.  A non-positive price is
rejected; if no price was set yet the stored price becomes `0.000001`
(the source's division-by-zero guard), and in either rejection case the
method returns without refreshing the target-met status. -/
def updateKasUsdPrice (s : RewardsManager) (newPrice : ℚ) : RewardsManager :=
  if newPrice ≤ 0 then
    match s.currentKasUsdPrice with
    | none => { s with currentKasUsdPrice := some (1 / 1000000) }
    | some _ => s
  else
    updateOwnerTargetMetStatus { s with currentKasUsdPrice := some newPrice }

/-- Step 2 of `process_mined_reward` (the owner's allocation), returning
`(kas_for_owner, emitted instructions, updated state)`.  When the target is
infinite (`none`), `needed_for_owner = inf - cumulative = inf`, so the
source's guard `needed_for_owner > 0` holds and
`min(kas_after_dev_fee, inf) = kas_after_dev_fee`. -/
def ownerAllocationStep (s : RewardsManager) (kasAfterDevFee : ℚ) :
    ℚ × List PayoutInstruction × RewardsManager :=
  if s.ownerTargetMet then (0, [], s)
  else
    let s1 := updateOwnerTargetMetStatus s
    if s1.ownerTargetMet then (0, [], s1)
    else
      match getOwnerAllocationTargetKas s1 with
      | none =>
        let kasForOwner := kasAfterDevFee
        let s2 := { s1 with
          cumulativeOwnerAllocationKas := s1.cumulativeOwnerAllocationKas + kasForOwner }
        (kasForOwner,
          [{ address := s2.ownerKaspaAddress, amountKas := kasForOwner,
             type := "owner_allocation" }],
          updateOwnerTargetMetStatus s2)
      | some ownerTargetKas =>
        let neededForOwner := ownerTargetKas - s1.cumulativeOwnerAllocationKas
        if 0 < neededForOwner then
          let kasForOwner := min kasAfterDevFee neededForOwner
          let s2 := { s1 with
            cumulativeOwnerAllocationKas := s1.cumulativeOwnerAllocationKas + kasForOwner }
          (kasForOwner,
            [{ address := s2.ownerKaspaAddress, amountKas := kasForOwner,
               type := "owner_allocation" }],
            updateOwnerTargetMetStatus s2)
        else (0, [], s1)

/-- `RewardsManager.process_mined_reward`: dev fee, then owner allocation,
then the user's net share, returning the emitted instructions and the
updated state. -/
def processMinedReward (s : RewardsManager) (grossKasReward : ℚ) :
    List PayoutInstruction × RewardsManager :=
  if grossKasReward ≤ 0 then ([], s)
  else
    let s1 := { s with
      totalGrossKasProcessed := s.totalGrossKasProcessed + grossKasReward }
    let devFeeAmount := grossKasReward * (DEV_FEE_PERCENTAGE / 100)
    let s2 := { s1 with cumulativeDevFeeKas := s1.cumulativeDevFeeKas + devFeeAmount }
    let feeInstr : PayoutInstruction :=
      { address := s2.devFeeAddress, amountKas := devFeeAmount, type := "dev_fee" }
    let kasAfterDevFee := grossKasReward - devFeeAmount
    let step := ownerAllocationStep s2 kasAfterDevFee
    let userNetReward := kasAfterDevFee - step.1
    if 0 < userNetReward then
      let s4 := { step.2.2 with
        cumulativeUserNetKas := step.2.2.cumulativeUserNetKas + userNetReward }
      (feeInstr :: step.2.1 ++
        [{ address := s4.userKaspaAddress, amountKas := userNetReward,
           type := "user_reward" }], s4)
    else (feeInstr :: step.2.1, step.2.2)

/-- Python's `str.startswith`, expressed on the underlying character
lists. -/
def strStartsWith (s p : String) : Bool :=
  p.toList.isPrefixOf s.toList

/-- `RewardsManager.__init__`: address validation (a kaspa address must be
non-empty and start with `"kaspa:"`; emptiness is subsumed by the
`startswith` check), initial zero counters, unset price, and the initial
`_update_owner_target_met_status` call. -/
def initRewardsManager (userAddr devAddr ownerAddr : String) (targetUsd : ℚ) :
    Option RewardsManager :=
  if strStartsWith userAddr "kaspa:" ∧ strStartsWith devAddr "kaspa:" ∧
      strStartsWith ownerAddr "kaspa:" then
    some (updateOwnerTargetMetStatus
      { userKaspaAddress := userAddr, devFeeAddress := devAddr,
        ownerKaspaAddress := ownerAddr, ownerAllocationTargetUsd := targetUsd,
        currentKasUsdPrice := none, cumulativeDevFeeKas := 0,
        cumulativeOwnerAllocationKas := 0, cumulativeUserNetKas := 0,
        totalGrossKasProcessed := 0, ownerTargetMet := false })
  else none

/-- Sum of the `amount_kas` fields of a list of payout instructions. -/
def amountsSum (l : List PayoutInstruction) : ℚ :=
  (l.map PayoutInstruction.amountKas).sum

/-- A sequence of `process_mined_reward` calls, concatenating all emitted
instructions. -/
def processSequence (s : RewardsManager) : List ℚ → List PayoutInstruction × RewardsManager
  | [] => ([], s)
  | g :: gs =>
    let r := processMinedReward s g
    let rest := processSequence r.2 gs
    (r.1 ++ rest.1, rest.2)

/-- The operations that can touch a `RewardsManager` after construction. -/
inductive RewardsOp where
  | processReward (g : ℚ)
  | updatePrice (p : ℚ)
deriving DecidableEq

/-- Apply one operation to the manager state. -/
def applyOp (s : RewardsManager) : RewardsOp → RewardsManager
  | .processReward g => (processMinedReward s g).2
  | .updatePrice p => updateKasUsdPrice s p

/-- Apply a sequence of operations to the manager state. -/
def applyOps (s : RewardsManager) (ops : List RewardsOp) : RewardsManager :=
  ops.foldl applyOp s

/-! ### Supporting lemmas for the rewards manager -/

lemma amountsSum_nil : amountsSum [] = 0 := rfl

lemma amountsSum_cons (i : PayoutInstruction) (l : List PayoutInstruction) :
    amountsSum (i :: l) = i.amountKas + amountsSum l := by
  simp [amountsSum]

lemma amountsSum_append (l₁ l₂ : List PayoutInstruction) :
    amountsSum (l₁ ++ l₂) = amountsSum l₁ + amountsSum l₂ := by
  simp [amountsSum]

lemma updateOwnerTargetMetStatus_of_met (s : RewardsManager)
    (h : s.ownerTargetMet = true) : updateOwnerTargetMetStatus s = s := by
  simp [updateOwnerTargetMetStatus, h]

lemma updateOwnerTargetMetStatus_price_none (s : RewardsManager)
    (h : s.currentKasUsdPrice = none) : updateOwnerTargetMetStatus s = s := by
  simp [updateOwnerTargetMetStatus, getOwnerAllocationTargetKas, h]

lemma ownerAllocationStep_of_met (s : RewardsManager) (a : ℚ)
    (h : s.ownerTargetMet = true) : ownerAllocationStep s a = (0, [], s) := by
  simp [ownerAllocationStep, h]

lemma ownerAllocationStep_sum (s : RewardsManager) (a : ℚ) :
    amountsSum (ownerAllocationStep s a).2.1 = (ownerAllocationStep s a).1 := by
  unfold ownerAllocationStep
  dsimp only
  split
  · simp [amountsSum]
  · split
    · simp [amountsSum]
    · split
      · simp [amountsSum]
      · split
        · simp [amountsSum]
        · simp [amountsSum]

lemma ownerAllocationStep_le (s : RewardsManager) (a : ℚ) (h : 0 ≤ a) :
    (ownerAllocationStep s a).1 ≤ a := by
  unfold ownerAllocationStep
  dsimp only
  split
  · simpa using h
  · split
    · simpa using h
    · split
      · simp
      · split
        · simp
        · simpa using h

lemma ownerAllocationStep_pos (s : RewardsManager) (a : ℚ) (h : 0 < a) :
    ∀ i ∈ (ownerAllocationStep s a).2.1, 0 < i.amountKas := by
  unfold ownerAllocationStep
  dsimp only
  split
  · simp
  · split
    · simp
    · split
      · intro i hi
        simp only [List.mem_singleton] at hi
        subst hi
        simpa using h
      · split
        · rename_i hneed
          intro i hi
          simp only [List.mem_singleton] at hi
          subst hi
          simpa using lt_min h hneed
        · simp

lemma ownerAllocationStep_price_none (s : RewardsManager) (a : ℚ)
    (hp : s.currentKasUsdPrice = none) (hm : s.ownerTargetMet = false) :
    (ownerAllocationStep s a).2.2.ownerTargetMet = false ∧
      (ownerAllocationStep s a).2.2.currentKasUsdPrice = none := by
  unfold ownerAllocationStep
  dsimp only
  rw [updateOwnerTargetMetStatus_price_none s hp]
  simp [hm, getOwnerAllocationTargetKas, hp, updateOwnerTargetMetStatus_price_none]

lemma processMinedReward_flag_of_met (s : RewardsManager) (g : ℚ)
    (h : s.ownerTargetMet = true) :
    (processMinedReward s g).2.ownerTargetMet = true := by
  unfold processMinedReward
  dsimp only
  split
  · exact h
  · simp only [ownerAllocationStep_of_met, h]
    split <;> simp [h]

lemma updateKasUsdPrice_flag_of_met (s : RewardsManager) (p : ℚ)
    (h : s.ownerTargetMet = true) :
    (updateKasUsdPrice s p).ownerTargetMet = true := by
  unfold updateKasUsdPrice
  split
  · split <;> simp [h]
  · rw [updateOwnerTargetMetStatus_of_met _ (by simp [h])]
    simp [h]

lemma applyOps_flag_of_met (ops : List RewardsOp) (s : RewardsManager)
    (h : s.ownerTargetMet = true) : (applyOps s ops).ownerTargetMet = true := by
  induction ops generalizing s with
  | nil => exact h
  | cons op ops ih =>
    cases op with
    | processReward g =>
      exact ih _ (processMinedReward_flag_of_met s g h)
    | updatePrice p =>
      exact ih _ (updateKasUsdPrice_flag_of_met s p h)

lemma processMinedReward_no_owner_instr (s : RewardsManager) (g : ℚ)
    (h : s.ownerTargetMet = true) :
    ∀ i ∈ (processMinedReward s g).1, i.type ≠ "owner_allocation" := by
  unfold processMinedReward
  dsimp only
  split
  · simp
  · simp only [ownerAllocationStep_of_met, h]
    split
    · intro i hi
      simp only [List.mem_cons, List.mem_append, List.mem_singleton,
        List.not_mem_nil, false_or, or_false] at hi
      rcases hi with rfl | rfl
      · show "dev_fee" ≠ "owner_allocation"
        decide
      · show "user_reward" ≠ "owner_allocation"
        decide
    · intro i hi
      simp only [List.mem_cons, List.not_mem_nil, or_false] at hi
      subst hi
      show "dev_fee" ≠ "owner_allocation"
      decide

lemma processMinedReward_sum (s : RewardsManager) (g : ℚ) (h : 0 ≤ g) :
    amountsSum (processMinedReward s g).1 = g := by
  rcases eq_or_lt_of_le h with hg | hg
  · rw [← hg]
    simp [processMinedReward, amountsSum]
  · have hng : ¬ g ≤ 0 := not_le.mpr hg
    unfold processMinedReward
    dsimp only
    rw [if_neg hng]
    have hA : (0 : ℚ) ≤ g - g * (DEV_FEE_PERCENTAGE / 100) := by
      unfold DEV_FEE_PERCENTAGE
      linarith
    split
    · rw [amountsSum_append, amountsSum_cons, ownerAllocationStep_sum,
        amountsSum_cons, amountsSum_nil]
      ring
    · rename_i hneg
      rw [amountsSum_cons, ownerAllocationStep_sum]
      have hle := ownerAllocationStep_le
        { s with totalGrossKasProcessed := s.totalGrossKasProcessed + g,
                 cumulativeDevFeeKas :=
                   s.cumulativeDevFeeKas + g * (DEV_FEE_PERCENTAGE / 100) }
        (g - g * (DEV_FEE_PERCENTAGE / 100)) hA
      push_neg at hneg
      linarith

lemma processSequence_sum (s : RewardsManager) (gs : List ℚ)
    (h : ∀ x ∈ gs, 0 ≤ x) :
    amountsSum (processSequence s gs).1 = gs.sum := by
  induction gs generalizing s with
  | nil => simp [processSequence, amountsSum_nil]
  | cons g gs ih =>
    unfold processSequence
    dsimp only
    rw [amountsSum_append, processMinedReward_sum s g (h g (List.mem_cons_self g gs)),
      ih ((processMinedReward s g).2) (fun x hx => h x (List.mem_cons_of_mem g hx)),
      List.sum_cons]

lemma processMinedReward_flag_price_none (s : RewardsManager) (g : ℚ)
    (hp : s.currentKasUsdPrice = none) (hm : s.ownerTargetMet = false) :
    (processMinedReward s g).2.ownerTargetMet = false := by
  unfold processMinedReward
  dsimp only
  split
  · exact hm
  · have h2 := ownerAllocationStep_price_none
      { s with totalGrossKasProcessed := s.totalGrossKasProcessed + g,
               cumulativeDevFeeKas :=
                 s.cumulativeDevFeeKas + g * (DEV_FEE_PERCENTAGE / 100) }
      (g - g * (DEV_FEE_PERCENTAGE / 100)) (by simpa using hp) (by simpa using hm)
    split
    · exact h2.1
    · exact h2.1

/-- A sample reachable manager state used by witnesses below. -/
def sampleManager : RewardsManager :=
  { userKaspaAddress := "kaspa:useraddr", devFeeAddress := "kaspa:devaddr",
    ownerKaspaAddress := "kaspa:owneraddr", ownerAllocationTargetUsd := 50000,
    currentKasUsdPrice := none, cumulativeDevFeeKas := 0,
    cumulativeOwnerAllocationKas := 0, cumulativeUserNetKas := 0,
    totalGrossKasProcessed := 0, ownerTargetMet := false }

/-- The sample state with the owner target already met. -/
def sampleManagerMet : RewardsManager :=
  { sampleManager with ownerTargetMet := true }

/-- C1: for every gross reward `g ≥ 0`, the sum of `amount_kas` over all
payout instructions emitted by `process_mined_reward` for that call equals
exactly `g`, and over any sequence of calls on non-negative gross rewards
the total of all emitted amounts equals the total gross processed. -/
theorem rewards_conservation (s : RewardsManager) (g : ℚ) (gs : List ℚ) :
    (0 ≤ g → amountsSum (processMinedReward s g).1 = g) ∧
      ((∀ x ∈ gs, 0 ≤ x) → amountsSum (processSequence s gs).1 = gs.sum) :=
  ⟨fun h => processMinedReward_sum s g h, fun h => processSequence_sum s gs h⟩

/-- Witness for C1 at a concrete state and rewards. -/
theorem rewards_conservation_witness :
    amountsSum (processMinedReward sampleManager 10).1 = 10 ∧
      amountsSum (processSequence sampleManager [10, 20]).1 = [10, 20].sum :=
  ⟨(rewards_conservation sampleManager 10 [10, 20]).1 (by norm_num),
   (rewards_conservation sampleManager 10 [10, 20]).2 (by norm_num)⟩

/-- C2: once `owner_target_met` is true it stays true under any sequence of
`process_mined_reward` / `update_kas_usd_price` calls, and no subsequent
`process_mined_reward` call ever emits an `owner_allocation` instruction. -/
theorem owner_target_met_sticky (s : RewardsManager) (ops : List RewardsOp) (g : ℚ)
    (h : s.ownerTargetMet = true) :
    (applyOps s ops).ownerTargetMet = true ∧
      ∀ i ∈ (processMinedReward (applyOps s ops) g).1, i.type ≠ "owner_allocation" :=
  ⟨applyOps_flag_of_met ops s h,
   processMinedReward_no_owner_instr _ g (applyOps_flag_of_met ops s h)⟩

/-- Witness for C2 at a concrete state and operation sequence. -/
theorem owner_target_met_sticky_witness :
    (applyOps sampleManagerMet [.updatePrice 2, .processReward 5]).ownerTargetMet = true ∧
      ∀ i ∈ (processMinedReward
          (applyOps sampleManagerMet [.updatePrice 2, .processReward 5]) 7).1,
        i.type ≠ "owner_allocation" :=
  owner_target_met_sticky sampleManagerMet [.updatePrice 2, .processReward 5] 7 rfl

/-- C7: a non-positive gross reward is a complete no-op: empty instruction
list and the state returned unchanged. -/
theorem process_nonpositive_noop (s : RewardsManager) (g : ℚ) (h : g ≤ 0) :
    processMinedReward s g = ([], s) := by
  simp [processMinedReward, h]

/-- Witness for C7 at gross `0` and a concrete state. -/
theorem process_nonpositive_noop_witness :
    processMinedReward sampleManager 0 = ([], sampleManager) :=
  process_nonpositive_noop sampleManager 0 le_rfl

/-- C8: every payout instruction emitted by `process_mined_reward` has a
strictly positive amount, for every input gross and every state. -/
theorem payout_amounts_positive (s : RewardsManager) (g : ℚ) :
    ∀ i ∈ (processMinedReward s g).1, 0 < i.amountKas := by
  by_cases hg : g ≤ 0
  · simp [processMinedReward, hg]
  · unfold processMinedReward
    dsimp only
    rw [if_neg hg]
    push_neg at hg
    have hA : (0 : ℚ) < g - g * (DEV_FEE_PERCENTAGE / 100) := by
      unfold DEV_FEE_PERCENTAGE
      linarith
    have hpos := ownerAllocationStep_pos
      { s with totalGrossKasProcessed := s.totalGrossKasProcessed + g,
               cumulativeDevFeeKas :=
                 s.cumulativeDevFeeKas + g * (DEV_FEE_PERCENTAGE / 100) }
      (g - g * (DEV_FEE_PERCENTAGE / 100)) hA
    split
    · rename_i hu
      intro i hi
      rcases List.mem_append.mp hi with hi1 | hi2
      · rcases List.mem_cons.mp hi1 with rfl | hi1
        · show (0 : ℚ) < g * (DEV_FEE_PERCENTAGE / 100)
          unfold DEV_FEE_PERCENTAGE
          linarith
        · exact hpos i hi1
      · rw [List.mem_singleton] at hi2
        subst hi2
        exact hu
    · intro i hi
      rcases List.mem_cons.mp hi with rfl | hi
      · show (0 : ℚ) < g * (DEV_FEE_PERCENTAGE / 100)
        unfold DEV_FEE_PERCENTAGE
        linarith
      · exact hpos i hi

/-- Witness for C8: the dev-fee instruction of a concrete call has a
positive amount. -/
theorem payout_amounts_positive_witness :
    0 < ({ address := "kaspa:devaddr", amountKas := 1,
           type := "dev_fee" } : PayoutInstruction).amountKas :=
  payout_amounts_positive sampleManager 10 _ (by
    norm_num [processMinedReward, sampleManager, ownerAllocationStep,
      updateOwnerTargetMetStatus, getOwnerAllocationTargetKas, DEV_FEE_PERCENTAGE])

/-- C5 (amended): while no price has ever been supplied
(`current_kas_usd_price` is `None`) the owner-allocation target is infinite
(`none`) and `process_mined_reward` never sets `owner_target_met`; however,
an `update_kas_usd_price` call with a non-positive price in that situation
stores the fallback price `0.000001`, after which the target is the finite
value `target_usd * 1000000` rather than infinity. -/
theorem price_unset_target_infinite (s : RewardsManager) (g p : ℚ)
    (hp : s.currentKasUsdPrice = none) (hm : s.ownerTargetMet = false)
    (hq : p ≤ 0) :
    getOwnerAllocationTargetKas s = none ∧
      (processMinedReward s g).2.ownerTargetMet = false ∧
      (updateKasUsdPrice s p).currentKasUsdPrice = some (1 / 1000000) ∧
      getOwnerAllocationTargetKas (updateKasUsdPrice s p) =
        some (s.ownerAllocationTargetUsd * 1000000) := by
  refine ⟨?_, processMinedReward_flag_price_none s g hp hm, ?_, ?_⟩
  · simp [getOwnerAllocationTargetKas, hp]
  · simp [updateKasUsdPrice, hq, hp]
  · simp only [updateKasUsdPrice, if_pos hq, hp]
    simp only [getOwnerAllocationTargetKas]
    rw [if_neg (by norm_num : ¬ (1 : ℚ) / 1000000 ≤ 0)]
    rw [one_div, div_inv_eq_mul]

/-- Witness for the amended C5 at a concrete state, gross and price. -/
theorem price_unset_target_infinite_witness :
    getOwnerAllocationTargetKas sampleManager = none ∧
      (processMinedReward sampleManager 5).2.ownerTargetMet = false ∧
      (updateKasUsdPrice sampleManager (-2)).currentKasUsdPrice = some (1 / 1000000) ∧
      getOwnerAllocationTargetKas (updateKasUsdPrice sampleManager (-2)) =
        some (sampleManager.ownerAllocationTargetUsd * 1000000) :=
  price_unset_target_infinite sampleManager 5 (-2) rfl rfl (by norm_num)

/-- C5 counterexample: from a freshly initialised manager with
`owner_allocation_target_usd = 0` and no price ever supplied, a single
`update_kas_usd_price(-1)` call (a non-positive price) yields a finite
owner-allocation target (`some 0`, not infinity), and the next
`process_mined_reward` call sets `owner_target_met` even though no positive
price was ever set. -/
theorem price_nonpositive_target_finite_counterexample :
    (initRewardsManager "kaspa:user" "kaspa:dev" "kaspa:owner" 0).map
        (fun s0 =>
          (getOwnerAllocationTargetKas (updateKasUsdPrice s0 (-1)),
            (processMinedReward (updateKasUsdPrice s0 (-1)) 10).2.ownerTargetMet)) =
      some (some 0, true) := by
  have hinit : initRewardsManager "kaspa:user" "kaspa:dev" "kaspa:owner" 0 =
      some { userKaspaAddress := "kaspa:user", devFeeAddress := "kaspa:dev",
             ownerKaspaAddress := "kaspa:owner", ownerAllocationTargetUsd := 0,
             currentKasUsdPrice := none, cumulativeDevFeeKas := 0,
             cumulativeOwnerAllocationKas := 0, cumulativeUserNetKas := 0,
             totalGrossKasProcessed := 0, ownerTargetMet := false } := by
    rw [initRewardsManager, if_pos (by decide)]
    rw [updateOwnerTargetMetStatus_price_none _ rfl]
  rw [hinit, Option.map_some']
  norm_num [updateKasUsdPrice, processMinedReward, ownerAllocationStep,
    updateOwnerTargetMetStatus, getOwnerAllocationTargetKas, DEV_FEE_PERCENTAGE]

/-! ## Byte-string helpers -/

/-- Python `n.to_bytes(8, 'little')` (defined for `n < 2^64`): the eight
little-endian bytes of `n`. -/
def leBytes8 (n : Nat) : List Nat :=
  [n % 256, n / 2 ^ 8 % 256, n / 2 ^ 16 % 256, n / 2 ^ 24 % 256,
   n / 2 ^ 32 % 256, n / 2 ^ 40 % 256, n / 2 ^ 48 % 256, n / 2 ^ 56 % 256]

/-- Python `n.to_bytes(4, 'little')`. -/
def leBytes4 (n : Nat) : List Nat :=
  [n % 256, n / 2 ^ 8 % 256, n / 2 ^ 16 % 256, n / 2 ^ 24 % 256]

/-- Python `int.from_bytes(bs, 'big')`. -/
def fromBytesBE (bs : List Nat) : Nat :=
  bs.foldl (fun acc b => acc * 256 + b) 0

/-- Python `int.from_bytes(bs, 'little')`. -/
def fromBytesLE (bs : List Nat) : Nat :=
  bs.foldr (fun b acc => acc * 256 + b) 0

/-- One lowercase hexadecimal digit character. -/
def hexChar (n : Nat) : Char :=
  if n < 10 then Char.ofNat (48 + n) else Char.ofNat (87 + n)

/-- Python `bytes.hex()`: two lowercase hex digits per byte. -/
def bytesToHex (bs : List Nat) : String :=
  ⟨bs.foldr (fun b acc => hexChar (b / 16) :: hexChar (b % 16) :: acc) []⟩

/-! ## Hash search engine (`skyscope_miner/hashing_logic.py`) -/

/-- The fields of the block-template dict consumed by `mine_block`; the
`Option`s model `dict.get` returning `None` for missing keys
(`block_header_data_prefix` is shortened to `…Pfx`). -/
structure BlockTemplate where
  jobId : String
  targetDifficultyInt : Option Nat
  blockHeaderDataPfx : Option (List Nat)
deriving DecidableEq

/-- The solved-block dict returned by `mine_block`. -/
structure Solution where
  jobId : String
  headerWithNonceHex : String
  nonce : Nat
  hashResultHex : String
deriving DecidableEq

/-- The nonce loop of `SkyscopeHashQ.mine_block`, parametric in the hash
function `H`.  A nonce of `2^64` would make `nonce.to_bytes(8, 'little')`
raise `OverflowError`, which the surrounding `except` turns into `None`;
the guard models that. -/
def mineGo (H : List Nat → List Nat) (pfx : List Nat) (target : Nat)
    (jid : String) (nonce : Nat) : Nat → Option Solution
  | 0 => none
  | fuel + 1 =>
    if 2 ^ 64 ≤ nonce then none
    else
      let headerWithNonce := pfx ++ leBytes8 nonce
      let hashBytes := H headerWithNonce
      if fromBytesBE hashBytes < target then
        some { jobId := jid, headerWithNonceHex := bytesToHex headerWithNonce,
               nonce := nonce, hashResultHex := bytesToHex hashBytes }
      else mineGo H pfx target jid (nonce + 1) fuel

/-- `SkyscopeHashQ.mine_block`: returns `None` when the template lacks the
target or header data, otherwise iterates nonces
`0, 1, …, target_nonce_range - 1`. -/
def mineBlock (H : List Nat → List Nat) (tmpl : BlockTemplate)
    (targetNonceRange : Nat) : Option Solution :=
  match tmpl.targetDifficultyInt, tmpl.blockHeaderDataPfx with
  | some target, some pfx => mineGo H pfx target tmpl.jobId 0 targetNonceRange
  | _, _ => none

/-! ## Conceptual kHeavyHash (`skyscope_miner/kheavyhash_py.py`)

The external Keccak-256 primitive (the `pysha3` library, not part of this
repository) is passed as an explicit function on byte lists. -/

def KHEAVYHASH_MATRIX_SIZE : Nat := 32

def KHEAVYHASH_ROUNDS : Nat := 2

/-- The 64-bit mask used throughout the matrix arithmetic. -/
def mask64 : Nat := 0xFFFFFFFFFFFFFFFF

/-- Matrix element access (`matrix[r][c]`). -/
def matGet (m : List (List Nat)) (r c : Nat) : Nat :=
  (m.getD r []).getD c 0

/-- `initialize_matrix`: entry `(r, c)` is the little-endian value of the
first 8 bytes of `keccak(seed ++ le4(r) ++ le4(c))`. -/
def initMatrix (keccak : List Nat → List Nat) (seed : List Nat) (size : Nat) :
    List (List Nat) :=
  (List.range size).map fun r =>
    (List.range size).map fun c =>
      fromBytesLE ((keccak (seed ++ leBytes4 r ++ leBytes4 c)).take 8)

/-- `multiply_matrices_conceptual`: standard matrix product with every
partial product and every partial sum masked to 64 bits. -/
def multiplyMatrices (a b : List (List Nat)) (size : Nat) : List (List Nat) :=
  (List.range size).map fun r =>
    (List.range size).map fun c =>
      (List.range size).foldl
        (fun sumVal k =>
          (sumVal + ((matGet a r k * matGet b k c) &&& mask64)) &&& mask64) 0

/-- `hash_matrix_state_conceptual`: serialize the matrix row-major with
8 little-endian bytes per entry and Keccak-256 the result. -/
def hashMatrixState (keccak : List Nat → List Nat) (m : List (List Nat))
    (size : Nat) : List Nat :=
  keccak (((List.range size).map fun r =>
    ((List.range size).map fun c => leBytes8 (matGet m r c)).flatten).flatten)

/-- The ASCII bytes of `b"matrix_b_seed_modifier"`. -/
def matrixBSeedModifier : List Nat :=
  "matrix_b_seed_modifier".toList.map Char.toNat

/-- The round loop of `kheavyhash_conceptual_python`: multiply, hash the
state, and re-derive the operand matrix from the intermediate hash on every
round except the last. -/
def khRounds (keccak : List Nat → List Nat) (rounds : Nat)
    (cur opB : List (List Nat)) (iRound : Nat) : Nat → List (List Nat)
  | 0 => cur
  | fuel + 1 =>
    let cur1 := multiplyMatrices cur opB KHEAVYHASH_MATRIX_SIZE
    let intermediateHash := hashMatrixState keccak cur1 KHEAVYHASH_MATRIX_SIZE
    let opB1 :=
      if iRound < rounds - 1 then
        initMatrix keccak intermediateHash KHEAVYHASH_MATRIX_SIZE
      else opB
    khRounds keccak rounds cur1 opB1 (iRound + 1) fuel

/-- `kheavyhash_conceptual_python`, parametric in the external Keccak-256
primitive. -/
def kheavyhashConceptual (keccak : List Nat → List Nat)
    (headerWithNonce : List Nat) : List Nat :=
  let initialSeed := keccak headerWithNonce
  let currentMatrix := initMatrix keccak initialSeed KHEAVYHASH_MATRIX_SIZE
  let tempSeedForB := keccak (initialSeed ++ matrixBSeedModifier)
  let matrixBOperand := initMatrix keccak tempSeedForB KHEAVYHASH_MATRIX_SIZE
  hashMatrixState keccak
    (khRounds keccak KHEAVYHASH_ROUNDS currentMatrix matrixBOperand 0
      KHEAVYHASH_ROUNDS)
    KHEAVYHASH_MATRIX_SIZE

/-! ## Node connector: submission retries (`skyscope_miner/kaspa_connector.py`) -/

/-- Outcome of a single submission attempt: accepted, or failed with the
`KaspaBlockSubmissionError.is_retryable` classification. -/
inductive SubmissionOutcome where
  | accepted
  | failed (isRetryable : Bool)
deriving DecidableEq

/-- The retry loop of `KaspaConnector.submit_block`, with per-attempt
outcomes supplied as an oracle indexed by attempt number (the source draws
them from its environment); returns the reported result and the number of
attempts performed.  A non-retryable failure, or any failure on the last
allowed attempt, returns `False` immediately; success returns `True`. -/
def submitGo (outcomes : Nat → SubmissionOutcome) (attempt : Nat) :
    Nat → Bool × Nat
  | 0 => (false, attempt)
  | fuel + 1 =>
    match outcomes attempt with
    | .accepted => (true, attempt + 1)
    | .failed r =>
      if r = false ∨ fuel = 0 then (false, attempt + 1)
      else submitGo outcomes (attempt + 1) fuel

/-- `KaspaConnector.submit_block`: a failed node-status check reports
failure with no attempt made; otherwise the retry loop runs with at most
`retry_attempts` attempts. -/
def submitBlock (nodeReady : Bool) (outcomes : Nat → SubmissionOutcome)
    (retryAttempts : Nat) : Bool × Nat :=
  if nodeReady then submitGo outcomes 0 retryAttempts else (false, 0)

/-! ## Compact target expansion
(`KaspaConnector._calculate_target_from_bits_conceptual`) -/

/-- Value of one hexadecimal digit character, `none` for anything else. -/
def hexDigitToNat (c : Char) : Option Nat :=
  if '0' ≤ c ∧ c ≤ '9' then some (c.toNat - 48)
  else if 'a' ≤ c ∧ c ≤ 'f' then some (c.toNat - 87)
  else if 'A' ≤ c ∧ c ≤ 'F' then some (c.toNat - 55)
  else none

/-- Remaining digits of a hex literal; a single `_` is allowed between two
digits (as in Python numeric literals), never doubled, leading or
trailing. -/
def parseDigitsGo (acc : Nat) : List Char → Option Nat
  | [] => some acc
  | '_' :: cs =>
    match cs with
    | c :: cs1 =>
      match hexDigitToNat c with
      | some d => parseDigitsGo (acc * 16 + d) cs1
      | none => none
    | [] => none
  | c :: cs =>
    match hexDigitToNat c with
    | some d => parseDigitsGo (acc * 16 + d) cs
    | none => none

/-- A non-empty run of hex digits starting with a digit. -/
def parseHexDigitsList : List Char → Option Nat
  | [] => none
  | c :: cs =>
    match hexDigitToNat c with
    | some d => parseDigitsGo d cs
    | none => none

/-- Digits after a `0x`/`0X` mark; Python permits one underscore directly
after the mark (`int("0x_1f", 16)` is valid). -/
def parseAfterBaseMark : List Char → Option Nat
  | '_' :: cs => parseHexDigitsList cs
  | cs => parseHexDigitsList cs

/-- The unsigned part of the literal: an optional `0x`/`0X` mark, then
digits. -/
def parseUnsignedHex : List Char → Option Nat
  | '0' :: x :: cs =>
    if x = 'x' ∨ x = 'X' then parseAfterBaseMark cs
    else parseHexDigitsList ('0' :: x :: cs)
  | cs => parseHexDigitsList cs

/-- ASCII whitespace stripped by Python `int()`. -/
def isPySpace (c : Char) : Bool :=
  c = ' ' ∨ c = '\t' ∨ c = '\n' ∨ c = '\r' ∨ c = '\x0b' ∨ c = '\x0c'

/-- Strip leading and trailing whitespace. -/
def stripPySpaces (cs : List Char) : List Char :=
  ((cs.dropWhile isPySpace).reverse.dropWhile isPySpace).reverse

/-- Model of Python `int(s, 16)`: `none` when parsing raises `ValueError`.
Covers ASCII whitespace, an optional sign, an optional `0x`/`0X` mark and
single underscores between digits; non-ASCII digit forms accepted by
Python are out of the modelled domain. -/
def parseHexInt (s : String) : Option Int :=
  match stripPySpaces s.toList with
  | '+' :: cs => (parseUnsignedHex cs).map fun n => (n : Int)
  | '-' :: cs => (parseUnsignedHex cs).map fun n => -(n : Int)
  | cs => (parseUnsignedHex cs).map fun n => (n : Int)

/-- The arithmetic of `_calculate_target_from_bits_conceptual` on the
parsed integer: `exponent = bits_val >> 24`, `coefficient =
bits_val & 0x007FFFFF`, the conditional shift, and the final clamp
`& ((1 << 256) - 1)`.  On ℤ, `/` and `%` are euclidean; for the positive
divisors used here they agree with Python's floor shifts and mask
semantics (including on negative inputs). -/
def calculateTargetFromBitsVal (bitsVal : Int) : Nat :=
  let exponent : Int := bitsVal / 2 ^ 24
  let coefficient : Int := bitsVal % 2 ^ 23
  let target : Int :=
    if exponent ≤ 3 then coefficient / 2 ^ (8 * (3 - exponent)).toNat
    else coefficient * 2 ^ (8 * (exponent - 3)).toNat
  (target % 2 ^ 256).toNat

/-- The default "easy" target returned when parsing the bits string fails
(the source's `except` branch): `int("000F…F", 16)` with 61 `F`s. -/
def defaultEasyTarget : Nat :=
  0x000FFFFFFFFFFFFFFFFFFFFFFFFFFFFFFFFFFFFFFFFFFFFFFFFFFFFFFFFFFFFF

/-- `KaspaConnector._calculate_target_from_bits_conceptual`. -/
def calculateTargetFromBitsConceptual (bitsHex : String) : Nat :=
  match parseHexInt bitsHex with
  | some v => calculateTargetFromBitsVal v
  | none => defaultEasyTarget

lemma calculateTargetFromBitsVal_natCast (n : ℕ) :
    calculateTargetFromBitsVal (n : ℤ) =
      (if n / 2 ^ 24 ≤ 3 then (n % 2 ^ 23) / 2 ^ (8 * (3 - n / 2 ^ 24))
       else (n % 2 ^ 23) * 2 ^ (8 * (n / 2 ^ 24 - 3))) % 2 ^ 256 := by
  unfold calculateTargetFromBitsVal
  dsimp only
  have h24 : ((2 : ℤ) ^ 24) = ((2 ^ 24 : ℕ) : ℤ) := by norm_cast
  have h23 : ((2 : ℤ) ^ 23) = ((2 ^ 23 : ℕ) : ℤ) := by norm_cast
  have h256 : ((2 : ℤ) ^ 256) = ((2 ^ 256 : ℕ) : ℤ) := by norm_cast
  rw [h24, h23, ← Int.ofNat_ediv, ← Int.ofNat_emod]
  by_cases hle : n / 2 ^ 24 ≤ 3
  · rw [if_pos (by exact_mod_cast hle : ((n / 2 ^ 24 : ℕ) : ℤ) ≤ 3)]
    have hsh : (8 * (3 - ((n / 2 ^ 24 : ℕ) : ℤ))).toNat = 8 * (3 - n / 2 ^ 24) := by
      omega
    rw [hsh]
    have h2k : ((2 : ℤ) ^ (8 * (3 - n / 2 ^ 24)))
        = ((2 ^ (8 * (3 - n / 2 ^ 24)) : ℕ) : ℤ) := by push_cast; ring
    rw [h2k, ← Int.ofNat_ediv, h256, ← Int.ofNat_emod, Int.toNat_natCast,
      if_pos hle]
  · rw [if_neg (by exact_mod_cast hle : ¬ ((n / 2 ^ 24 : ℕ) : ℤ) ≤ 3)]
    have hsh : (8 * (((n / 2 ^ 24 : ℕ) : ℤ) - 3)).toNat = 8 * (n / 2 ^ 24 - 3) := by
      omega
    rw [hsh]
    have h2k : ((2 : ℤ) ^ (8 * (n / 2 ^ 24 - 3)))
        = ((2 ^ (8 * (n / 2 ^ 24 - 3)) : ℕ) : ℤ) := by push_cast; ring
    rw [h2k, ← Int.ofNat_mul, h256, ← Int.ofNat_emod, Int.toNat_natCast,
      if_neg hle]

/-- C4: for every compact `(exponent, mantissa)` encoding
(value `exponent·2^24 + mantissa`, where the mantissa is the 23-bit field
that the code extracts with `& 0x007FFFFF`), the expanded target is
`mantissa << 8·(exponent−3)` when `exponent > 3` and
`mantissa >> 8·(3−exponent)` otherwise, clamped to 256 bits; and for
`exponent = 3` the result equals the mantissa exactly. -/
theorem calculate_target_shift_formula (exponent mantissa : ℕ)
    (hm : mantissa < 2 ^ 23) :
    calculateTargetFromBitsVal ((exponent * 2 ^ 24 + mantissa : ℕ) : ℤ) =
      (if 3 < exponent then mantissa <<< (8 * (exponent - 3))
       else mantissa >>> (8 * (3 - exponent))) % 2 ^ 256 ∧
      calculateTargetFromBitsVal ((3 * 2 ^ 24 + mantissa : ℕ) : ℤ) = mantissa := by
  have he : (exponent * 2 ^ 24 + mantissa) / 2 ^ 24 = exponent := by omega
  have hc : (exponent * 2 ^ 24 + mantissa) % 2 ^ 23 = mantissa := by omega
  have he3 : (3 * 2 ^ 24 + mantissa) / 2 ^ 24 = 3 := by omega
  have hc3 : (3 * 2 ^ 24 + mantissa) % 2 ^ 23 = mantissa := by omega
  constructor
  · rw [calculateTargetFromBitsVal_natCast, he, hc, Nat.shiftLeft_eq,
      Nat.shiftRight_eq_div_pow]
    by_cases h3 : 3 < exponent
    · rw [if_neg (by omega), if_pos h3]
    · rw [if_pos (by omega), if_neg h3]
  · rw [calculateTargetFromBitsVal_natCast, he3, hc3, if_pos (by omega)]
    norm_num
    omega

/-- Witness for C4 at the spec's reference encoding
`(exponent, mantissa) = (0x18, 0x0313ea)`. -/
theorem calculate_target_shift_formula_witness :
    (0x0313ea : ℕ) < 2 ^ 23 ∧
      calculateTargetFromBitsVal ((0x18 * 2 ^ 24 + 0x0313ea : ℕ) : ℤ) =
        (if 3 < 0x18 then (0x0313ea : ℕ) <<< (8 * (0x18 - 3))
         else (0x0313ea : ℕ) >>> (8 * (3 - 0x18))) % 2 ^ 256 :=
  ⟨by norm_num, (calculate_target_shift_formula 0x18 0x0313ea (by norm_num)).1⟩

/-- C10: a bits string that fails to parse as a hexadecimal literal does
not raise to the caller: the conversion returns the fixed default easy
target constant `0x000FF…F = 16^61 − 1`. -/
theorem parse_failure_default_target (s : String) (h : parseHexInt s = none) :
    calculateTargetFromBitsConceptual s = 16 ^ 61 - 1 := by
  unfold calculateTargetFromBitsConceptual
  rw [h]
  norm_num [defaultEasyTarget]

/-- Witness for C10 at the malformed bits string `"zz"`. -/
theorem parse_failure_default_target_witness :
    calculateTargetFromBitsConceptual "zz" = 16 ^ 61 - 1 :=
  parse_failure_default_target "zz" (by decide)

lemma submitGo_terminal (outcomes : Nat → SubmissionOutcome) :
    ∀ (k attempt fuel : Nat), k < fuel →
      outcomes (attempt + k) = .failed false →
      (∀ j < k, outcomes (attempt + j) = .failed true) →
      submitGo outcomes attempt fuel = (false, attempt + k + 1) := by
  intro k
  induction k with
  | zero =>
    intro attempt fuel hk hterm _
    cases fuel with
    | zero => omega
    | succ f =>
      simp only [submitGo]
      rw [Nat.add_zero] at hterm
      rw [hterm]
      simp
  | succ k ih =>
    intro attempt fuel hk hterm hpre
    cases fuel with
    | zero => omega
    | succ f =>
      simp only [submitGo]
      have h0 : outcomes attempt = .failed true := by
        simpa using hpre 0 (Nat.succ_pos k)
      rw [h0]
      dsimp only
      rw [if_neg (by simp; omega)]
      have hrec := ih (attempt + 1) f (by omega)
        (by rw [show attempt + 1 + k = attempt + (k + 1) by omega]; exact hterm)
        (fun j hj => by
          rw [show attempt + 1 + j = attempt + (j + 1) by omega]
          exact hpre (j + 1) (by omega))
      rw [hrec]
      rw [show attempt + 1 + k + 1 = attempt + (k + 1) + 1 by omega]

/-- C6: in `submit_block`, a rejection classified as non-retryable at
attempt index `k` (with every earlier attempt a retryable transient
failure) makes the call return failure immediately after exactly `k + 1`
attempts — no further retries — for any remaining retry budget. -/
theorem submit_terminal_rejection_immediate (outcomes : Nat → SubmissionOutcome)
    (k retryAttempts : Nat) (hk : k < retryAttempts)
    (hterm : outcomes k = .failed false)
    (hpre : ∀ j < k, outcomes j = .failed true) :
    submitBlock true outcomes retryAttempts = (false, k + 1) := by
  unfold submitBlock
  rw [if_pos rfl]
  have h := submitGo_terminal outcomes k 0 retryAttempts hk
    (by simpa using hterm) (fun j hj => by simpa using hpre j hj)
  simpa using h

/-- The attempt-outcome trace of the spec's scenario: three transient
failures, then a terminal rejection. -/
def threeTransientThenTerminal : Nat → SubmissionOutcome :=
  fun n => if n < 3 then .failed true else .failed false

/-- Witness for C6: three transient failures followed by a terminal
rejection, with budget 5, reports failure after exactly 4 attempts. -/
theorem submit_terminal_rejection_immediate_witness :
    submitBlock true threeTransientThenTerminal 5 = (false, 4) :=
  submit_terminal_rejection_immediate threeTransientThenTerminal 3 5
    (by norm_num) (by decide) (by decide)

lemma fromBytesBE_go_lt (bs : List Nat) :
    ∀ acc, (∀ b ∈ bs, b < 256) →
      bs.foldl (fun acc b => acc * 256 + b) acc < (acc + 1) * 256 ^ bs.length := by
  induction bs with
  | nil =>
    intro acc _
    simp
  | cons c cs ih =>
    intro acc h
    simp only [List.foldl_cons, List.length_cons]
    have hc : c < 256 := h c (List.mem_cons_self c cs)
    calc cs.foldl (fun acc b => acc * 256 + b) (acc * 256 + c)
        < (acc * 256 + c + 1) * 256 ^ cs.length :=
          ih (acc * 256 + c) (fun b hb => h b (List.mem_cons_of_mem c hb))
      _ ≤ ((acc + 1) * 256) * 256 ^ cs.length :=
          Nat.mul_le_mul_right _ (by omega)
      _ = (acc + 1) * 256 ^ (cs.length + 1) := by ring

lemma fromBytesBE_lt (bs : List Nat) (h : ∀ b ∈ bs, b < 256) :
    fromBytesBE bs < 256 ^ bs.length := by
  have hx := fromBytesBE_go_lt bs 0 h
  simpa [fromBytesBE] using hx

lemma kheavyhashConceptual_shape (keccak : List Nat → List Nat)
    (hk : ∀ y, (keccak y).length = 32 ∧ ∀ b ∈ keccak y, b < 256)
    (x : List Nat) :
    (kheavyhashConceptual keccak x).length = 32 ∧
      ∀ b ∈ kheavyhashConceptual keccak x, b < 256 := by
  unfold kheavyhashConceptual hashMatrixState
  exact hk _

lemma kheavyhash_digest_lt (keccak : List Nat → List Nat)
    (hk : ∀ y, (keccak y).length = 32 ∧ ∀ b ∈ keccak y, b < 256)
    (x : List Nat) :
    fromBytesBE (kheavyhashConceptual keccak x) < 2 ^ 256 := by
  have h := kheavyhashConceptual_shape keccak hk x
  have hlt := fromBytesBE_lt _ h.2
  rw [h.1] at hlt
  rw [show (256 : ℕ) ^ 32 = 2 ^ 256 by norm_num] at hlt
  exact hlt

lemma mineGo_spec (H : List Nat → List Nat) (pfx : List Nat) (t : Nat)
    (jid : String) :
    ∀ (fuel start : Nat), start + fuel ≤ 2 ^ 64 →
      (∀ sol, mineGo H pfx t jid start fuel = some sol →
          start ≤ sol.nonce ∧ sol.nonce < start + fuel ∧
          fromBytesBE (H (pfx ++ leBytes8 sol.nonce)) < t ∧
          (∀ m, start ≤ m → m < sol.nonce →
            t ≤ fromBytesBE (H (pfx ++ leBytes8 m))) ∧
          sol = { jobId := jid,
                  headerWithNonceHex := bytesToHex (pfx ++ leBytes8 sol.nonce),
                  nonce := sol.nonce,
                  hashResultHex := bytesToHex (H (pfx ++ leBytes8 sol.nonce)) }) ∧
      ((mineGo H pfx t jid start fuel = none) ↔
        ∀ n, start ≤ n → n < start + fuel →
          t ≤ fromBytesBE (H (pfx ++ leBytes8 n))) := by
  intro fuel
  induction fuel with
  | zero =>
    intro start hb
    constructor
    · intro sol hsol
      simp [mineGo] at hsol
    · constructor
      · intro _ n h1 h2
        omega
      · intro _
        simp [mineGo]
  | succ f ih =>
    intro start hb
    have hguard : ¬ 2 ^ 64 ≤ start := by omega
    by_cases hdig : fromBytesBE (H (pfx ++ leBytes8 start)) < t
    · constructor
      · intro sol hsol
        simp only [mineGo] at hsol
        rw [if_neg hguard] at hsol
        rw [if_pos hdig] at hsol
        obtain rfl := (Option.some_inj.mp hsol).symm
        refine ⟨le_refl _, (by omega : start < start + (f + 1)), hdig, ?_, rfl⟩
        intro m hm1 hm2
        exact absurd (lt_of_le_of_lt hm1 hm2) (lt_irrefl start)
      · constructor
        · intro hnone
          simp only [mineGo] at hnone
          rw [if_neg hguard] at hnone
          rw [if_pos hdig] at hnone
          exact absurd hnone (Option.some_ne_none _)
        · intro hall
          exact absurd hdig (not_lt.mpr (hall start (le_refl _) (by omega)))
    · have hrec := ih (start + 1) (by omega)
      have hstep : mineGo H pfx t jid start (f + 1)
          = mineGo H pfx t jid (start + 1) f := by
        simp only [mineGo]
        rw [if_neg hguard]
        rw [if_neg hdig]
      constructor
      · intro sol hsol
        rw [hstep] at hsol
        obtain ⟨h1, h2, h3, h4, h5⟩ := hrec.1 sol hsol
        refine ⟨by omega, by omega, h3, ?_, h5⟩
        intro m hm1 hm2
        rcases Nat.eq_or_lt_of_le hm1 with rfl | hm1'
        · exact not_lt.mp hdig
        · exact h4 m (by omega) hm2
      · rw [hstep, hrec.2]
        constructor
        · intro hall n hn1 hn2
          rcases Nat.eq_or_lt_of_le hn1 with rfl | h
          · exact not_lt.mp hdig
          · exact hall n (by omega) (by omega)
        · intro hall n hn1 hn2
          exact hall n (by omega) (by omega)

/-- C3: for every hash function, block template carrying target `t` and
header data `pfx`, and nonce bound `N ≤ 2^64` (nonces are uint64),
`mine_block` returns exactly the solution at the least nonce `n < N` whose
digest, read big-endian, is strictly below `t`; it returns `None` iff no
nonce in the range qualifies. -/
theorem mineBlock_first_qualifying_nonce (H : List Nat → List Nat)
    (tmpl : BlockTemplate) (t : Nat) (pfx : List Nat) (N : Nat)
    (ht : tmpl.targetDifficultyInt = some t)
    (hp : tmpl.blockHeaderDataPfx = some pfx) (hN : N ≤ 2 ^ 64) :
    (∀ sol, mineBlock H tmpl N = some sol →
        sol.nonce < N ∧ fromBytesBE (H (pfx ++ leBytes8 sol.nonce)) < t ∧
        (∀ m < sol.nonce, t ≤ fromBytesBE (H (pfx ++ leBytes8 m))) ∧
        sol = { jobId := tmpl.jobId,
                headerWithNonceHex := bytesToHex (pfx ++ leBytes8 sol.nonce),
                nonce := sol.nonce,
                hashResultHex := bytesToHex (H (pfx ++ leBytes8 sol.nonce)) }) ∧
      ((mineBlock H tmpl N = none) ↔
        ∀ n < N, t ≤ fromBytesBE (H (pfx ++ leBytes8 n))) := by
  have hspec := mineGo_spec H pfx t tmpl.jobId N 0 (by omega)
  have hmb : mineBlock H tmpl N = mineGo H pfx t tmpl.jobId 0 N := by
    unfold mineBlock
    rw [ht, hp]
  constructor
  · intro sol hsol
    rw [hmb] at hsol
    obtain ⟨h1, h2, h3, h4, h5⟩ := hspec.1 sol hsol
    exact ⟨by omega, h3, fun m hm => h4 m (by omega) hm, h5⟩
  · rw [hmb, hspec.2]
    constructor
    · intro hall n hn
      exact hall n (by omega) (by omega)
    · intro hall n hn1 hn2
      exact hall n (by omega)

/-- A constant all-zero 32-byte hash oracle used by witnesses. -/
def zeroKeccak : List Nat → List Nat := fun _ => List.replicate 32 0

/-- A concrete template for the C3 witness. -/
def wTemplate : BlockTemplate :=
  { jobId := "wjob", targetDifficultyInt := some 1, blockHeaderDataPfx := some [] }

/-- Witness for C3 at a concrete hash oracle, template and nonce bound. -/
theorem mineBlock_first_qualifying_nonce_witness :
    (∀ sol, mineBlock zeroKeccak wTemplate 2 = some sol →
        sol.nonce < 2 ∧ fromBytesBE (zeroKeccak ([] ++ leBytes8 sol.nonce)) < 1 ∧
        (∀ m < sol.nonce, 1 ≤ fromBytesBE (zeroKeccak ([] ++ leBytes8 m))) ∧
        sol = { jobId := wTemplate.jobId,
                headerWithNonceHex := bytesToHex ([] ++ leBytes8 sol.nonce),
                nonce := sol.nonce,
                hashResultHex := bytesToHex (zeroKeccak ([] ++ leBytes8 sol.nonce)) }) ∧
      ((mineBlock zeroKeccak wTemplate 2 = none) ↔
        ∀ n < 2, 1 ≤ fromBytesBE (zeroKeccak ([] ++ leBytes8 n))) :=
  mineBlock_first_qualifying_nonce zeroKeccak wTemplate 1 [] 2 rfl rfl (by norm_num)

/-- C9 (amended): with the template target equal to the maximal 256-bit
digest value `2^256 − 1`, `mine_block` over the conceptual kHeavyHash finds
a solution at the very first nonce (0) for any positive nonce budget,
provided the digest at nonce 0 is not itself the all-ones value — under
the strict `<` comparison a maximal digest does not qualify (see the
counterexample); every 32-byte digest lies below `2^256`, so only the
all-ones digest fails. -/
theorem mine_max_target_first_nonce (keccak : List Nat → List Nat)
    (pfx : List Nat) (jid : String) (N : Nat) (hN : 0 < N)
    (hk : ∀ y, (keccak y).length = 32 ∧ ∀ b ∈ keccak y, b < 256)
    (hd : fromBytesBE (kheavyhashConceptual keccak (pfx ++ leBytes8 0))
      ≠ 2 ^ 256 - 1) :
    mineBlock (kheavyhashConceptual keccak)
        { jobId := jid, targetDifficultyInt := some (2 ^ 256 - 1),
          blockHeaderDataPfx := some pfx } N =
      some { jobId := jid, headerWithNonceHex := bytesToHex (pfx ++ leBytes8 0),
             nonce := 0,
             hashResultHex :=
               bytesToHex (kheavyhashConceptual keccak (pfx ++ leBytes8 0)) } := by
  obtain ⟨f, rfl⟩ : ∃ f, N = f + 1 := ⟨N - 1, by omega⟩
  have hlt : fromBytesBE (kheavyhashConceptual keccak (pfx ++ leBytes8 0))
      < 2 ^ 256 - 1 := by
    have hb := kheavyhash_digest_lt keccak hk (pfx ++ leBytes8 0)
    omega
  have hmb : mineBlock (kheavyhashConceptual keccak)
      { jobId := jid, targetDifficultyInt := some (2 ^ 256 - 1),
        blockHeaderDataPfx := some pfx } (f + 1)
      = mineGo (kheavyhashConceptual keccak) pfx (2 ^ 256 - 1) jid 0 (f + 1) := rfl
  rw [hmb]
  simp only [mineGo]
  rw [if_neg (by norm_num : ¬ (2 : ℕ) ^ 64 ≤ 0)]
  rw [if_pos hlt]

/-- Witness for the amended C9 at the all-zero hash oracle. -/
theorem mine_max_target_first_nonce_witness :
    mineBlock (kheavyhashConceptual zeroKeccak)
        { jobId := "wjob2", targetDifficultyInt := some (2 ^ 256 - 1),
          blockHeaderDataPfx := some [] } 1 =
      some { jobId := "wjob2", headerWithNonceHex := bytesToHex ([] ++ leBytes8 0),
             nonce := 0,
             hashResultHex :=
               bytesToHex (kheavyhashConceptual zeroKeccak ([] ++ leBytes8 0)) } :=
  mine_max_target_first_nonce zeroKeccak [] "wjob2" 1 (by norm_num)
    (fun y => ⟨by simp [zeroKeccak], fun b hb => by
      simp only [zeroKeccak, List.mem_replicate] at hb
      omega⟩)
    (by
      rw [show kheavyhashConceptual zeroKeccak ([] ++ leBytes8 0)
        = List.replicate 32 0 from rfl]
      decide)

/-- C9 counterexample: with a Keccak oracle that returns the all-ones
32-byte digest, every digest equals the target `2^256 − 1` and the strict
comparison never succeeds, so `mine_block` returns `None` even at the
maximal target — refuting "the very first nonce yields a solution, since
any digest qualifies". -/
theorem mine_max_target_counterexample :
    mineBlock (kheavyhashConceptual (fun _ => List.replicate 32 255))
        { jobId := "cejob", targetDifficultyInt := some (2 ^ 256 - 1),
          blockHeaderDataPfx := some [] } 3 = none := by
  have hconst : ∀ x, kheavyhashConceptual (fun _ => List.replicate 32 255) x
      = List.replicate 32 255 := fun _ => rfl
  have hval : fromBytesBE (List.replicate 32 255) = 2 ^ 256 - 1 := by decide
  have hspec := mineGo_spec (kheavyhashConceptual (fun _ => List.replicate 32 255))
    [] (2 ^ 256 - 1) "cejob" 3 0 (by norm_num)
  have hmb : mineBlock (kheavyhashConceptual (fun _ => List.replicate 32 255))
      { jobId := "cejob", targetDifficultyInt := some (2 ^ 256 - 1),
        blockHeaderDataPfx := some [] } 3
      = mineGo (kheavyhashConceptual (fun _ => List.replicate 32 255))
          [] (2 ^ 256 - 1) "cejob" 0 3 := rfl
  rw [hmb, hspec.2]
  intro n _ _
  rw [hconst, hval]
